import Mathlib

/-
  Shallow embedding of the anki-addon-cardscheduler core
  (src/cardscheduler/__init__.py): furigana extraction, reading alignment,
  phonetic matching, dictionary loading, and card scoring.
  Python strings are modelled as `List Char`; the reading dictionary as an
  association list; floats arising from score averaging as `ℚ`.
-/

namespace CardScheduler

abbrev Str := List Char

/-- Kanji test used by `get_kanji_set` / `extract_kanji_only` /
`split_reading_with_positions`: the range U+4E00 to U+9FFF. -/
def isKanji (c : Char) : Bool := '一' ≤ c && c ≤ '鿿'

/-- Character class of the first regex group `[一-龯ぁ-ゖァ-ヺー々]`. -/
def isCompoundChar (c : Char) : Bool :=
  ('一' ≤ c && c ≤ '龯') || ('ぁ' ≤ c && c ≤ 'ゖ') ||
  ('ァ' ≤ c && c ≤ 'ヺ') || c = 'ー' || c = '々'

/-- Character class of the second regex group `[ぁ-ゖァ-ヺー]`. -/
def isReadingChar (c : Char) : Bool :=
  ('ぁ' ≤ c && c ≤ 'ゖ') || ('ァ' ≤ c && c ≤ 'ヺ') || c = 'ー'

/-- One attempted regex match of `([一-龯ぁ-ゖァ-ヺー々]+)\[([ぁ-ゖァ-ヺー]+)\]`
anchored at the head of `s`; returns the compound, the reading, and the
rest of the input.  The classes exclude the brackets, so the greedy runs
admit no backtracking. -/
def matchAt (s : Str) : Option (Str × Str × Str) :=
  let w := s.takeWhile isCompoundChar
  let s1 := s.dropWhile isCompoundChar
  if w = [] then none
  else
    match s1 with
    | '[' :: s2 =>
      let r := s2.takeWhile isReadingChar
      let s3 := s2.dropWhile isReadingChar
      if r = [] then none
      else
        match s3 with
        | ']' :: s4 => some (w, r, s4)
        | _ => none
    | _ => none

/-- The findall scan, fuelled for structural recursion; every step
consumes at least one input character (a match consumes the whole match,
a failure advances one character), so fuel equal to the input length is
exact. -/
def findMatchesGo : Nat → Str → List (Str × Str)
  | 0, _ => []
  | _, [] => []
  | fuel + 1, c :: rest =>
    match matchAt (c :: rest) with
    | some (w, r, rest2) => (w, r) :: findMatchesGo fuel rest2
    | none => findMatchesGo fuel rest

/-- `re.findall` of the furigana pattern: scan left to right, emitting
non-overlapping matches and advancing one character after a failure. -/
def findMatches (s : Str) : List (Str × Str) := findMatchesGo s.length s

/-- `expand_iteration_marks`: each 々 repeats the whole segment accumulated
since the previous 々 (Python appends `parts[-1]`). -/
def expandGo : Str → Str → List Str → List Str
  | [], cur, parts => if cur ≠ [] then parts ++ [cur] else parts
  | c :: rest, cur, parts =>
    if c = '々' then
      let parts1 := if cur ≠ [] then parts ++ [cur] else parts
      let parts2 := match parts1.getLast? with
        | some p => parts1 ++ [p]
        | none => parts1
      expandGo rest [] parts2
    else expandGo rest (cur ++ [c]) parts

def expand_iteration_marks (w : Str) : Str := (expandGo w [] []).flatten

/-- `extract_kanji_only`: keep only the kanji characters. -/
def extract_kanji_only (t : Str) : Str := t.filter isKanji

/-- `katakana_to_hiragana`: shift katakana ァ..ヶ down to hiragana. -/
def katakana_to_hiragana (t : Str) : Str :=
  t.map (fun c =>
    if 'ァ' ≤ c && c ≤ 'ヶ' then Char.ofNat (c.toNat - 'ァ'.toNat + 'ぁ'.toNat)
    else c)

def small_kana : List Char :=
  ['ゃ', 'ゅ', 'ょ', 'ぁ', 'ぃ', 'ぅ', 'ぇ', 'ぉ', 'っ',
   'ァ', 'ィ', 'ゥ', 'ェ', 'ォ', 'ャ', 'ュ', 'ョ', 'ッ']

/-- `extract_kana_units`: split into kana units, folding a following small
kana into the current unit. -/
def extract_kana_units : Str → List Str
  | [] => []
  | c :: c2 :: rest =>
    if c2 ∈ small_kana then [c, c2] :: extract_kana_units rest
    else [c] :: extract_kana_units (c2 :: rest)
  | [c] => [[c]]

/-- `count_kana_units`: same stepping as `extract_kana_units`, counting. -/
def count_kana_units : Str → Nat
  | [] => 0
  | _ :: c2 :: rest =>
    if c2 ∈ small_kana then count_kana_units rest + 1
    else count_kana_units (c2 :: rest) + 1
  | [_] => 1

/-- `normalize_reading_for_splitting`: drop every small tsu. -/
def normalize_reading_for_splitting (r : Str) : Str := r.filter (· ≠ 'っ')

def sokuon_endings : List Char :=
  ['つ', 'ち', 'く', 'き', 'さ', 'し', 'そ', 'こ', 'て', 'と', 'け']

/-- Sokuon version of a reading: the last character (one ending) replaced
by っ. -/
def sokuonVersion (kr : Str) : Str := kr.dropLast ++ ['っ']

/-- The `for ending in sokuon_endings` loop of `fuzzy_reading_match`. -/
def sokuonScan (kr ar : Str) : List Char → Option (Str × Str)
  | [] => none
  | e :: es =>
    if [e].isSuffixOf kr ∧ (sokuonVersion kr).isPrefixOf ar then
      some (sokuonVersion kr, kr)
    else sokuonScan kr ar es

/-- `multi_char_rendaku` table (h→b and f→p rows), in source order. -/
def multi_char_rendaku : List (Str × Str) :=
  [("ひょう".toList, "びょう".toList), ("ひゃ".toList, "びゃ".toList),
   ("ひゅ".toList, "びゅ".toList), ("ほう".toList, "ぼう".toList),
   ("は".toList, "ば".toList), ("ひ".toList, "び".toList),
   ("ふ".toList, "ぶ".toList), ("へ".toList, "べ".toList),
   ("ほ".toList, "ぼ".toList), ("ふょう".toList, "ぷょう".toList),
   ("ふゃ".toList, "ぷゃ".toList), ("ふゅ".toList, "ぷゅ".toList)]

/-- `h_to_p_rendaku` table used on whole readings. -/
def h_to_p_rendaku_multi : List (Str × Str) :=
  [("ひょう".toList, "ぴょう".toList), ("ひゃ".toList, "ぴゃ".toList),
   ("ひゅ".toList, "ぴゅ".toList), ("ほう".toList, "ぽう".toList),
   ("は".toList, "ぱ".toList), ("ひ".toList, "ぴ".toList),
   ("ふ".toList, "ぷ".toList), ("へ".toList, "ぺ".toList),
   ("ほ".toList, "ぽ".toList)]

/-- Table lookup followed by the `startswith` check (no match falls
through to the next stage). -/
def rendakuPrefixCheck (table : List (Str × Str)) (kr ar : Str) :
    Option (Str × Str) :=
  match table.lookup kr with
  | some exp => if exp.isPrefixOf ar then some (exp, kr) else none
  | none => none

/-- `single_char_rendaku` pairs. -/
def single_char_rendaku : List (Char × Char) :=
  [('か', 'が'), ('き', 'ぎ'), ('く', 'ぐ'), ('け', 'げ'), ('こ', 'ご'),
   ('さ', 'ざ'), ('し', 'じ'), ('す', 'ず'), ('せ', 'ぜ'), ('そ', 'ぞ'),
   ('た', 'だ'), ('ち', 'ぢ'), ('つ', 'づ'), ('て', 'で'), ('と', 'ど'),
   ('は', 'ば'), ('ひ', 'び'), ('ふ', 'ぶ'), ('へ', 'べ'), ('ほ', 'ぼ')]

/-- Single-character `h_to_p_rendaku` pairs. -/
def h_to_p_rendaku_single : List (Char × Char) :=
  [('は', 'ぱ'), ('ひ', 'ぴ'), ('ふ', 'ぷ'), ('へ', 'ぺ'), ('ほ', 'ぽ')]

/-- `f_to_p_rendaku` pairs (two-character keys). -/
def f_to_p_rendaku : List (Str × Str) :=
  [("ふぁ".toList, "ぱ".toList), ("ふぃ".toList, "ぴ".toList),
   ("ふぇ".toList, "ぺ".toList), ("ふぉ".toList, "ぽ".toList)]

/-- The `f_to_p_rendaku` loop inside the equal-length block. -/
def fToPScan (kr ar : Str) : List (Str × Str) → Option (Str × Str)
  | [] => none
  | (base, ren) :: rest =>
    if base.isPrefixOf kr ∧ ren.isPrefixOf ar ∧
        kr.drop base.length = ar.drop ren.length then
      some (ar, kr)
    else fToPScan kr ar rest

/-- The block of `fuzzy_reading_match` guarded by equal nonzero lengths:
single-character rendaku, then h→p, then the f→p loop. -/
def singleCharBlock (kr ar : Str) : Option (Str × Str) :=
  if kr.length = ar.length ∧ 0 < kr.length then
    match kr, ar with
    | k1 :: ktail, a1 :: atail =>
      if ktail = atail ∧ single_char_rendaku.lookup k1 = some a1 then
        some (a1 :: atail, k1 :: ktail)
      else if ktail = atail ∧ h_to_p_rendaku_single.lookup k1 = some a1 then
        some (a1 :: atail, k1 :: ktail)
      else fToPScan (k1 :: ktail) (a1 :: atail) f_to_p_rendaku
    | _, _ => none
  else none

/-- Final sokuon check of `fuzzy_reading_match` (がく vs がっ shape). -/
def finalSokuonCheck (kr ar : Str) : Option (Str × Str) :=
  if ['く'].isSuffixOf kr ∧ ['っ'].isSuffixOf ar ∧
      kr.dropLast = ar.dropLast then
    some (ar, kr)
  else none

/-- `fuzzy_reading_match`: decide whether the candidate `ar` denotes the
dictionary reading `kr` under a known transformation, returning
(consumed text, normalized dictionary reading). -/
def fuzzy_reading_match (kr ar : Str) : Option (Str × Str) :=
  if kr = ar then some (ar, kr)
  else match sokuonScan kr ar sokuon_endings with
  | some res => some res
  | none =>
    if ar.head? = some 'っ' ∧ kr = ar.tail ∧ ar.length ≤ kr.length + 2 then
      some (ar, kr)
    else match rendakuPrefixCheck multi_char_rendaku kr ar with
    | some res => some res
    | none => match rendakuPrefixCheck h_to_p_rendaku_multi kr ar with
    | some res => some res
    | none => match singleCharBlock kr ar with
    | some res => some res
    | none => finalSokuonCheck kr ar

/-- Effective `reverse_rendaku_map` of `get_base_reading_for_rendaku`
after Python resolves the duplicate ぱ/ぴ/ぽ/ぺ keys (last binding wins,
so those map to は/ひ/ほ/へ; ぷ maps to ふ). -/
def reverse_rendaku_map : List (Char × Char) :=
  [('が', 'か'), ('ぎ', 'き'), ('ぐ', 'く'), ('げ', 'け'), ('ご', 'こ'),
   ('ざ', 'さ'), ('じ', 'し'), ('ず', 'す'), ('ぜ', 'せ'), ('ぞ', 'そ'),
   ('だ', 'た'), ('ぢ', 'ち'), ('づ', 'つ'), ('で', 'て'), ('ど', 'と'),
   ('ば', 'は'), ('び', 'ひ'), ('ぶ', 'ふ'), ('べ', 'へ'), ('ぼ', 'ほ'),
   ('ぷ', 'ふ'), ('ぱ', 'は'), ('ぴ', 'ひ'), ('ぽ', 'ほ'), ('ぺ', 'へ')]

/-- `get_base_reading_for_rendaku`: unvoice the first character and keep
the result only when it is itself a listed reading.  The source indexes
`reading[0]` and would raise on an empty reading; that case is mapped to
`none` here and never arises for nonempty dictionary variants. -/
def get_base_reading_for_rendaku (reading : Str) (possible : List Str) :
    Option Str :=
  match reading with
  | [] => none
  | c :: rest =>
    match reverse_rendaku_map.lookup c with
    | some b => if (b :: rest) ∈ possible then some (b :: rest) else none
    | none => none

/-- Stable insertion keeping longer readings first, matching Python's
stable `sorted(key=len, reverse=True)`. -/
def insertDesc (x : Str) : List Str → List Str
  | [] => [x]
  | y :: ys => if y.length < x.length then x :: y :: ys else y :: insertDesc x ys

def sortReadingsDesc (l : List Str) : List Str :=
  l.foldl (fun acc x => insertDesc x acc) []

/-- Reading dictionary: literal text of a record mapped to its readings
(`kanji_readings`). -/
abbrev KDict := List (Str × List Str)

/-- `kanji_readings.get(kanji, [])` for a single character. -/
def kdGet (kd : KDict) (c : Char) : List Str := (kd.lookup [c]).getD []

/-- First exact variant match: the first sorted variant that is a literal
prefix of the remaining reading, emitted as its rendaku base when the
base is itself listed (`full` is the whole sorted candidate list, as the
source passes `possible_readings` to `get_base_reading_for_rendaku`). -/
def firstExactGo (full : List Str) (remaining : Str) :
    List Str → Option (Str × Nat)
  | [] => none
  | opt :: rest =>
    if opt.isPrefixOf remaining then
      some ((get_base_reading_for_rendaku opt full).getD opt, opt.length)
    else firstExactGo full remaining rest

def firstExact (possible : List Str) (remaining : Str) : Option (Str × Nat) :=
  firstExactGo possible remaining possible

/-- First fuzzy variant match against the remaining reading truncated to
`len(option) + 2` characters. -/
def firstFuzzy (possible : List Str) (remaining : Str) : Option (Str × Str) :=
  match possible with
  | [] => none
  | opt :: rest =>
    match fuzzy_reading_match opt (remaining.take (opt.length + 2)) with
    | some res => some res
    | none => firstFuzzy rest remaining

/-- One kanji of the position-aware pass: exact prefix match first, fuzzy
fallback second; returns the emitted reading and the new cursor. -/
def alignAt (kd : KDict) (reading : Str) (k : Char) (start : Nat) :
    Option (Str × Nat) :=
  let possible := sortReadingsDesc (kdGet kd k)
  let remaining := reading.drop start
  match firstExact possible remaining with
  | some (base, used) => some (base, start + used)
  | none =>
    match firstFuzzy possible remaining with
    | some (matchedActual, matchedKanjidic) =>
      some (matchedKanjidic, start + matchedActual.length)
    | none => none

/-- Indexed kanji of a compound (`kanji_positions` zipped with
`kanji_chars`). -/
def kanjiPositions (w : Str) : List (Nat × Char) :=
  w.enum.filter (fun pc => isKanji pc.2)

/-- The `start_reading_pos` of one step: 0 for the first kanji, else the
cursor advanced by the kana interleaved between the previous kanji and
this one. -/
def posStart (pos readingIndex prevPos : Nat) (first : Bool) : Nat :=
  if first then 0 else readingIndex + (pos - prevPos - 1)

/-- The left-to-right loop of `split_reading_with_positions`, also
recording each kanji's starting offset into the reading (the value of
`start_reading_pos`, including the offset of a failing step).  `none` in
the second component means the pass gave up and the caller falls back to
`split_reading`. -/
def posGo (kd : KDict) (reading : Str) :
    List (Nat × Char) → Nat → Nat → Bool →
    List (Nat × Nat) × Option (List (Char × Str))
  | [], _, _, _ => ([], some [])
  | (pos, k) :: rest, readingIndex, prevPos, first =>
    match alignAt kd reading k (posStart pos readingIndex prevPos first) with
    | some (base, idx) =>
      let next := posGo kd reading rest idx pos false
      ((pos, posStart pos readingIndex prevPos first) :: next.1,
        next.2.map (fun ps => (k, base) :: ps))
    | none => ([(pos, posStart pos readingIndex prevPos first)], none)

/-- Validation of the simple 1:1 branch of `split_reading`: every kanji
must have its kana unit as an exact dictionary reading. -/
def validOneToOne (kd : KDict) (ks : Str) (units : List Str) : Bool :=
  (ks.zip units).all (fun ku => ku.2 ∈ kdGet kd ku.1)

/-- The shortened-prefix loop: for each variant in order try the
2-character then the 1-character prefix, requiring the variant to be
strictly longer than the prefix. -/
def srPartial (possible : List Str) (remaining : Str) : Option (Str × Nat) :=
  match possible with
  | [] => none
  | opt :: rest =>
    if 2 < opt.length ∧ (opt.take 2).isPrefixOf remaining then some (opt, 2)
    else if 1 < opt.length ∧ (opt.take 1).isPrefixOf remaining then
      some (opt, 1)
    else srPartial rest remaining

/-- One kanji of the complex branch of `split_reading`: fuzzy first, then
exact, then shortened 2- or 1-character prefixes; returns the emitted
pair and the rest of the reading. -/
def srMatchOne (kd : KDict) (k : Char) (remaining : Str) :
    Option ((Char × Str) × Str) :=
  let possible := sortReadingsDesc (kdGet kd k)
  match firstFuzzy possible remaining with
  | some (matchedActual, matchedKanjidic) =>
    some ((k, matchedKanjidic), remaining.drop matchedActual.length)
  | none =>
    match firstExact possible remaining with
    | some (base, used) => some ((k, base), remaining.drop used)
    | none =>
      match srPartial possible remaining with
      | some (fullReading, used) => some ((k, fullReading), remaining.drop used)
      | none => none

/-- The complex loop of `split_reading` over all kanji; `none` when some
kanji matched nothing (the Python `break`). -/
def srLoop (kd : KDict) : Str → Str → Option (List (Char × Str))
  | [], _ => some []
  | k :: ks, remaining =>
    match srMatchOne kd k remaining with
    | some (pair, remaining2) =>
      (srLoop kd ks remaining2).map (fun ps => pair :: ps)
    | none => none

/-- `split_reading`: validated 1:1 mapping, then the complex matching
loop, then the small-tsu-normalized 1:1 fallback. -/
def split_reading (kanji_chars : Str) (reading : Str) (kd : KDict) :
    Option (List (Char × Str)) :=
  if kanji_chars.length = count_kana_units reading ∧
      validOneToOne kd kanji_chars (extract_kana_units reading) then
    some (kanji_chars.zip (extract_kana_units reading))
  else
    match srLoop kd kanji_chars reading with
    | some pairs => some pairs
    | none =>
      if kanji_chars.length =
          count_kana_units (normalize_reading_for_splitting reading) then
        some (kanji_chars.zip
          (extract_kana_units (normalize_reading_for_splitting reading)))
      else none

/-- `split_reading_with_positions`: position-aware pass with fallback to
`split_reading` on the first unmatched kanji. -/
def split_reading_with_positions (kanji_word reading : Str) (kd : KDict) :
    Option (List (Char × Str)) :=
  let ks := kanjiPositions kanji_word
  if ks.length ≤ 1 then none
  else
    match (posGo kd reading ks 0 0 true).2 with
    | some pairs => if pairs.length = ks.length then some pairs else none
    | none => split_reading (ks.map (fun pc => pc.2)) reading kd

/-- The starting offsets computed by the position-aware pass, paired with
each kanji's position in the source compound. -/
def posTrace (kanji_word reading : Str) (kd : KDict) : List (Nat × Nat) :=
  let ks := kanjiPositions kanji_word
  if ks.length ≤ 1 then [] else (posGo kd reading ks 0 0 true).1

/-- A pair rendered as the source's `f"{kanji}[{reading}]"` string. -/
def mkPair (w r : Str) : Str := w ++ '[' :: (r ++ [']'])

/-- Add to the Python set `kanji_pairs` (membership-deduplicating). -/
def addPair (ps : List Str) (p : Str) : List Str :=
  if p ∈ ps then ps else ps ++ [p]

/-- Add to the Python set `processed_kanji`. -/
def addChar (cs : List Char) (c : Char) : List Char :=
  if c ∈ cs then cs else cs ++ [c]

/-- Add one (kanji, reading) pair and mark the kanji processed, for each
item; set semantics make the source's `unique_pairs` pre-deduplication
a no-op here. -/
def addPairsFor (st : List Str × List Char) (items : List (Char × Str)) :
    List Str × List Char :=
  items.foldl
    (fun s kr => (addPair s.1 (mkPair [kr.1] kr.2), addChar s.2 kr.1)) st

/-- Processing of one regex match inside `get_kanji_reading_pairs`. -/
def processMatch (kd : KDict) (st : List Str × List Char) (m : Str × Str) :
    List Str × List Char :=
  match m with
  | ([c], r) => (addPair st.1 (mkPair [c] r), addChar st.2 c)
  | (w, r) =>
    let ew := expand_iteration_marks w
    let kc := extract_kanji_only ew
    if 1 < kc.length then
      let st1 := (addPair st.1 (mkPair w r), st.2)
      match split_reading_with_positions ew r kd with
      | some parts => addPairsFor st1 parts
      | none => addPairsFor st1 (kc.map (fun k => (k, [])))
    else
      match kc with
      | k :: _ => (addPair st.1 (mkPair [k] r), addChar st.2 k)
      | [] => st

/-- The final standalone-kanji loop: emit an empty reading for each kanji
character of the text never marked processed. -/
def emptyStep (proc : List Char) (ps : List Str) (c : Char) : List Str :=
  if isKanji c ∧ c ∉ proc then addPair ps (mkPair [c] []) else ps

/-- `get_kanji_reading_pairs`: the full extractor, returning the set of
rendered pair strings (as a duplicate-free list). -/
def get_kanji_reading_pairs (text : Str) (kd : KDict) : List Str :=
  let st := (findMatches text).foldl (processMatch kd) ([], [])
  text.foldl (emptyStep st.2) st.1

/-- The if-chain of `get_rendaku_form` as ordered first-match pairs; the
source's trailing branches compare the single first character with the
two-character strings ふぁ/ふぃ/ふぇ/ふぉ and can never fire. -/
def rendaku_table : List (Char × Char) :=
  [('か', 'が'), ('き', 'ぎ'), ('く', 'ぐ'), ('け', 'げ'), ('こ', 'ご'),
   ('さ', 'ざ'), ('し', 'じ'), ('す', 'ず'), ('せ', 'ぜ'), ('そ', 'ぞ'),
   ('た', 'だ'), ('ち', 'ぢ'), ('つ', 'づ'), ('て', 'で'), ('と', 'ど'),
   ('は', 'ば'), ('ひ', 'び'), ('ふ', 'ぶ'), ('へ', 'べ'), ('ほ', 'ぼ')]

/-- `get_rendaku_form`: voice the first character per the table, or
nothing. -/
def get_rendaku_form : Str → Option Str
  | [] => none
  | c :: rest =>
    match rendaku_table.lookup c with
    | some v => some (v :: rest)
    | none => none

/-- One record of the structured dictionary source: `literal` is `none`
when the record has no literal element (then `find('literal').text`
raises in the source), and the reading elements' texts. -/
structure XmlRecord where
  literal : Option Str
  ja_kun : List Str
  ja_on : List Str

/-- The dictionary source as seen through `ET.parse`: either unparsable
or a list of character records. -/
inductive XmlSource where
  | malformed
  | parsed (records : List XmlRecord)

/-- Kun cleanup: drop the okurigana part after the dot and every dash. -/
def clean_kun (t : Str) : Str := (t.takeWhile (· ≠ '.')).filter (· ≠ '-')

/-- The base readings of one record before rendaku expansion: cleaned
kun readings, then hiragana-converted on readings. -/
def base_readings (kuns ons : List Str) : List Str :=
  (kuns.filter (· ≠ [])).map clean_kun ++
    (ons.filter (· ≠ [])).map katakana_to_hiragana

/-- The readings list built for one record: the base readings followed
by the rendaku variations that are not already present. -/
def entry_readings (kuns ons : List Str) : List Str :=
  base_readings kuns ons ++
    ((base_readings kuns ons).filterMap get_rendaku_form).filter
      (fun f => f ∉ base_readings kuns ons)

/-- Python dict assignment `kanji_readings[kanji] = readings`: replace an
existing binding or append a new one. -/
def dictSet (d : KDict) (k : Str) (v : List Str) : KDict :=
  if d.any (fun e => e.1 = k) then
    d.map (fun e => if e.1 = k then (k, v) else e)
  else d ++ [(k, v)]

/-- The record loop of `load_kanji_readings`; a record with no literal
element makes the whole load fail (`None.text` raises AttributeError). -/
def loadEntries : List XmlRecord → KDict → Except Unit KDict
  | [], acc => .ok acc
  | r :: rest, acc =>
    match r.literal with
    | none => .error ()
    | some k => loadEntries rest (dictSet acc k (entry_readings r.ja_kun r.ja_on))

/-- `load_kanji_readings`: parse failure or any record without a literal
propagates as an error; otherwise the dictionary is built. -/
def load_kanji_readings : XmlSource → Except Unit KDict
  | .malformed => .error ()
  | .parsed recs => loadEntries recs []

/-- One flashcard as the Scoring Engine sees it: card id, recency
interval `ivl`, and the text of the scored field. -/
structure CardRec where
  id : Nat
  ivl : Int
  field : Str
deriving DecidableEq

/-- The extracted pair set of a card's field. -/
def card_pairs (kd : KDict) (c : CardRec) : List Str :=
  get_kanji_reading_pairs c.field kd

/-- `kanji_reading_to_cards[pair]`: the cards with a nonempty field whose
extracted pairs include the pair. -/
def pair_holders (kd : KDict) (corpus : List CardRec) (p : Str) :
    List CardRec :=
  corpus.filter (fun c => c.field ≠ [] ∧ p ∈ card_pairs kd c)

/-- The contributing cards for one pair while scoring `card`: the other
holders (`other_card.id != card.id`) whose own pair count is positive. -/
def pair_others (kd : KDict) (corpus : List CardRec) (card : CardRec)
    (p : Str) : List CardRec :=
  (pair_holders kd corpus p).filter
    (fun oc => oc.id ≠ card.id ∧ 0 < (card_pairs kd oc).length)

/-- The per-pair average computed while scoring `card` (weights are all
1.0): the mean interval of the other holders of the pair with a positive
pair count; `none` when the pair is absent from the map or no other
holder contributes weight (the pair is then skipped, not scored 0). -/
def pair_score (kd : KDict) (corpus : List CardRec) (card : CardRec)
    (p : Str) : Option ℚ :=
  if (pair_holders kd corpus p).isEmpty then none
  else if (pair_others kd corpus card p).isEmpty then none
  else some
    (((pair_others kd corpus card p).map (fun oc => (oc.ivl : ℚ))).sum /
      ((pair_others kd corpus card p).length : ℚ))

/-- `pair_scores`: the collected per-pair averages of one card. -/
def pair_scores_list (kd : KDict) (corpus : List CardRec) (card : CardRec) :
    List ℚ :=
  (card_pairs kd card).filterMap (pair_score kd corpus card)

/-- `card_scores[card.id]`: the plain average of the per-pair averages,
0 for an empty field or when no pair contributed. -/
def card_score (kd : KDict) (corpus : List CardRec) (card : CardRec) : ℚ :=
  if card.field = [] then 0
  else if (pair_scores_list kd corpus card).isEmpty then 0
  else (pair_scores_list kd corpus card).sum /
    ((pair_scores_list kd corpus card).length : ℚ)

/-- A note as `update_my_position_field` touches it: the note type's
field names and the field values, index-aligned. -/
structure AnkiNote where
  fieldNames : List Str
  fields : List Str

/-- Index of the first field named MyPosition in the note type. -/
def my_position_index (names : List Str) : Option Nat :=
  names.findIdx? (fun n => n = "MyPosition".toList)

/-- Round half to even, as Python's `round` on the scaled score. -/
def round_half_even (q : ℚ) : ℤ :=
  let f := q.floor
  if q - f < 1 / 2 then f
  else if 1 / 2 < q - f then f + 1
  else if f % 2 = 0 then f else f + 1

/-- `str(round(score, 1))` on the rational score: one decimal digit. -/
def format_score (q : ℚ) : Str :=
  let n := round_half_even (10 * q)
  let sign : Str := if n < 0 then ['-'] else []
  let m := n.natAbs
  sign ++ Nat.toDigits 10 (m / 10) ++ '.' :: Nat.toDigits 10 (m % 10)

/-- `update_my_position_field`: write the formatted score into the
MyPosition field when the note type has one (returning `true`),
otherwise leave the note alone and return `false`. -/
def update_my_position_field (note : AnkiNote) (score : ℚ) :
    AnkiNote × Bool :=
  match my_position_index note.fieldNames with
  | some i =>
    ({ note with fields := note.fields.set i (format_score score) }, true)
  | none => (note, false)

/-- The kanjidic entries for 一 and 挙 as `load_kanji_readings` produces
them from the shipped `kanjidic2_light.xml` (kun ひと-, ひと.つ and on
イチ, イツ for 一; kun あ.げる, あ.がる, こぞ.る and on キョ for 挙,
each with its appended rendaku form). -/
def kanjidicFrag : KDict :=
  [("一".toList,
    ["ひと".toList, "ひと".toList, "いち".toList, "いつ".toList,
     "びと".toList]),
   ("挙".toList,
    ["あ".toList, "あ".toList, "こぞ".toList, "きょ".toList,
     "ごぞ".toList, "ぎょ".toList])]

/-- Scoring scenario card A: pairs {一[あ], 二[い]}, recency 10. -/
def cardA : CardRec := ⟨1, 10, "一[あ]二[い]".toList⟩

/-- Scoring scenario card B: pairs {二[い], 三[う]}, recency 0. -/
def cardB : CardRec := ⟨2, 0, "二[い]三[う]".toList⟩

/-- The two-card scoring corpus of the specification's scenario. -/
def corpusC1 : List CardRec := [cardA, cardB]

/-- A card holding the pair 一[あ] with recency 10. -/
def holderTen : CardRec := ⟨1, 10, "一[あ]".toList⟩

/-- A card holding the pair 一[あ] (among others) with recency 0. -/
def holderZero : CardRec := ⟨2, 0, "一[あ]二[い]".toList⟩

/-- The card being scored against the pair 一[あ]. -/
def scoredCard : CardRec := ⟨3, 5, "一[あ]".toList⟩

/-- Dictionary making the first kanji of 一二あい consume three reading
characters, pushing the next starting offset past the claimed bound. -/
def overconsumeDict : KDict :=
  [("一".toList, ["かきく".toList]), ("二".toList, ["け".toList])]

/-- Pair X of the scoring scenario, held only by card A. -/
def pairX : Str := "一[あ]".toList

/-- Pair Y of the scoring scenario, shared by cards A and B. -/
def pairY : Str := "二[い]".toList

/-- Pair Z of the scoring scenario, held only by card B. -/
def pairZ : Str := "三[う]".toList

theorem pair_score_A_X : pair_score [] corpusC1 cardA pairX = none := by
  have h1 : pair_holders [] corpusC1 pairX = [cardA] := by decide
  have h2 : pair_others [] corpusC1 cardA pairX = [] := by decide
  unfold pair_score
  rw [h1, h2]
  simp

theorem pair_score_A_Y : pair_score [] corpusC1 cardA pairY = some 0 := by
  have h1 : pair_holders [] corpusC1 pairY = [cardA, cardB] := by decide
  have h2 : pair_others [] corpusC1 cardA pairY = [cardB] := by decide
  unfold pair_score
  rw [h1, h2]
  simp [cardB]

theorem pair_score_B_Y : pair_score [] corpusC1 cardB pairY = some 10 := by
  have h1 : pair_holders [] corpusC1 pairY = [cardA, cardB] := by decide
  have h2 : pair_others [] corpusC1 cardB pairY = [cardA] := by decide
  unfold pair_score
  rw [h1, h2]
  simp [cardA]

theorem pair_score_B_Z : pair_score [] corpusC1 cardB pairZ = none := by
  have h1 : pair_holders [] corpusC1 pairZ = [cardB] := by decide
  have h2 : pair_others [] corpusC1 cardB pairZ = [] := by decide
  unfold pair_score
  rw [h1, h2]
  simp

theorem card_score_A : card_score [] corpusC1 cardA = 0 := by
  have hp : card_pairs [] cardA = [pairX, pairY] := by decide
  have hs : pair_scores_list [] corpusC1 cardA = [0] := by
    unfold pair_scores_list
    rw [hp]
    simp [List.filterMap_cons, pair_score_A_X, pair_score_A_Y]
  unfold card_score
  rw [hs]
  simp [cardA]

theorem card_score_B : card_score [] corpusC1 cardB = 10 := by
  have hp : card_pairs [] cardB = [pairY, pairZ] := by decide
  have hs : pair_scores_list [] corpusC1 cardB = [10] := by
    unfold pair_scores_list
    rw [hp]
    simp [List.filterMap_cons, pair_score_B_Y, pair_score_B_Z]
  unfold card_score
  rw [hs]
  simp [cardB]

/-- C1: on the two-card scenario the Scoring Engine does not behave as
claimed: when scoring card A the shared pair Y averages to 0 (card A
itself is excluded while the zero-recency card B is counted), and card B
scores 10, not the claimed 5. -/
theorem C1_counterexample :
    pair_score [] corpusC1 cardA pairY = some 0 ∧
    card_score [] corpusC1 cardB = 10 ∧
    ¬ card_score [] corpusC1 cardB = 5 := by
  refine ⟨pair_score_A_Y, card_score_B, ?_⟩
  rw [card_score_B]
  norm_num

/-- C1 amended: when scoring a card, each pair averages the recencies of
the other holders only (the scored card is excluded), zero-recency cards
are counted, and a pair with no other holder contributes no term; hence
on the scenario CardScore[A] = 0 and CardScore[B] = 10. -/
theorem C1_amended_scoring_scenario :
    pair_score [] corpusC1 cardA pairX = none ∧
    pair_score [] corpusC1 cardA pairY = some 0 ∧
    card_score [] corpusC1 cardA = 0 ∧
    pair_score [] corpusC1 cardB pairY = some 10 ∧
    pair_score [] corpusC1 cardB pairZ = none ∧
    card_score [] corpusC1 cardB = 10 :=
  ⟨pair_score_A_X, pair_score_A_Y, card_score_A,
   pair_score_B_Y, pair_score_B_Z, card_score_B⟩

/-- C2: at the failing input 一挙[いっきょ] with the kanjidic entries for
一 and 挙 the extractor stops at the first matching variant of 一 and
also emits the whole-compound pair, so 一[いつ] is missing from the
result, contradicting the claim and the repository's own tests. -/
theorem C2_code_evaluation_at_failing_input :
    get_kanji_reading_pairs ("一挙[いっきょ]".toList) kanjidicFrag =
      ["一挙[いっきょ]".toList, "一[いち]".toList, "挙[きょ]".toList] ∧
    "一[いつ]".toList ∉
      get_kanji_reading_pairs ("一挙[いっきょ]".toList) kanjidicFrag := by
  decide

theorem pair_score_single_holder_ten :
    pair_score [] [holderTen] scoredCard pairX = some 10 := by
  have h1 : pair_holders [] [holderTen] pairX = [holderTen] := by decide
  have h2 : pair_others [] [holderTen] scoredCard pairX = [holderTen] := by
    decide
  unfold pair_score
  rw [h1, h2]
  simp [holderTen]

/-- C4: zero-recency cards are not excluded from a pair's mean: adding
the recency-0 holder to the matched set of pair X changes the pair's
mean from 10 to 5. -/
theorem C4_counterexample :
    pair_score [] [holderTen] scoredCard pairX = some 10 ∧
    pair_score [] [holderTen, holderZero] scoredCard pairX = some 5 := by
  refine ⟨pair_score_single_holder_ten, ?_⟩
  have h1 : pair_holders [] [holderTen, holderZero] pairX =
      [holderTen, holderZero] := by decide
  have h2 : pair_others [] [holderTen, holderZero] scoredCard pairX =
      [holderTen, holderZero] := by decide
  unfold pair_score
  rw [h1, h2]
  simp [holderTen, holderZero]
  norm_num

/-- C4 amended: a pair's per-scoring average is the unweighted mean of
the recencies of the other contributing holders regardless of recency;
adding a recency-0 card sharing the pair strictly lowers any positive
mean rather than leaving it unchanged. -/
theorem C4_amended_zero_recency_lowers_mean (kd : KDict)
    (corpus : List CardRec) (card zc : CardRec) (p : Str) (m : ℚ)
    (hm : pair_score kd corpus card p = some m) (hpos : 0 < m)
    (hzi : zc.ivl = 0) (hid : zc.id ≠ card.id) (hf : zc.field ≠ [])
    (hp : p ∈ card_pairs kd zc) :
    ∃ m2, pair_score kd (corpus ++ [zc]) card p = some m2 ∧ m2 < m := by
  have hlen : 0 < (card_pairs kd zc).length :=
    List.length_pos.mpr (List.ne_nil_of_mem hp)
  have hH : pair_holders kd (corpus ++ [zc]) p =
      pair_holders kd corpus p ++ [zc] := by
    unfold pair_holders
    rw [List.filter_append]
    congr 1
    simp [hf, hp]
  have hO : pair_others kd (corpus ++ [zc]) card p =
      pair_others kd corpus card p ++ [zc] := by
    unfold pair_others
    rw [hH, List.filter_append]
    congr 1
    simp [hid, hlen]
  unfold pair_score at hm ⊢
  rw [hH, hO]
  split at hm
  · exact absurd hm (by simp)
  · split at hm
    · exact absurd hm (by simp)
    · rename_i hne1 hne2
      rw [Option.some_inj] at hm
      have hnon : pair_others kd corpus card p ≠ [] := by
        simpa [List.isEmpty_iff] using hne2
      have hnpos : 0 < ((pair_others kd corpus card p).length : ℚ) := by
        exact_mod_cast List.length_pos.mpr hnon
      have hs : 0 < ((pair_others kd corpus card p).map
          (fun oc => (oc.ivl : ℚ))).sum := by
        have hm0 := hpos
        rw [← hm] at hm0
        exact (div_pos_iff.mp hm0).resolve_right (by
          intro hcon
          exact absurd hcon.2 (not_lt.mpr (le_of_lt hnpos)))  |>.1
      rw [if_neg (by simp), if_neg (by simp)]
      rw [List.map_append, List.sum_append, List.length_append]
      simp only [List.map_cons, List.map_nil, List.sum_cons, List.sum_nil,
        hzi, Int.cast_zero, add_zero, List.length_cons, List.length_nil,
        zero_add]
      refine ⟨_, rfl, ?_⟩
      rw [← hm]
      push_cast
      exact div_lt_div_of_pos_left hs hnpos (lt_add_of_pos_right _ one_pos)

/-- C4 amended witness: adding the concrete recency-0 holder lowers the
pair X mean below 10. -/
theorem C4_witness :
    ∃ m2, pair_score [] ([holderTen] ++ [holderZero]) scoredCard pairX =
      some m2 ∧ m2 < 10 :=
  C4_amended_zero_recency_lowers_mean [] [holderTen] scoredCard holderZero
    pairX 10 pair_score_single_holder_ten (by norm_num) rfl (by decide)
    (by decide) (by decide)

/-- C5: the Alignment Engine applies no clamp: on 一二あい with reading
かきくけ the second kanji's starting offset is 3, exceeding the reading
length minus the two source characters that remain after it (4 − 2 = 2),
even though the pass succeeds. -/
theorem C5_counterexample :
    (1, 3) ∈ posTrace ("一二あい".toList) ("かきくけ".toList)
      overconsumeDict ∧
    ¬ (3 + (("一二あい".toList).length - 1 - 1) ≤
        ("かきくけ".toList).length) ∧
    split_reading_with_positions ("一二あい".toList) ("かきくけ".toList)
      overconsumeDict =
      some [('一', "かきく".toList), ('二', "け".toList)] := by decide

/-- C6: a record missing the literal element is not skipped: the whole
load fails even though a well-formed record follows. -/
theorem C6_counterexample :
    load_kanji_readings (.parsed [⟨none, [], []⟩,
      ⟨some ("一".toList), [], ["いち".toList]⟩]) = .error () := by rfl

theorem loadEntries_error (recs : List XmlRecord) (acc : KDict)
    (h : ∃ r ∈ recs, r.literal = none) :
    loadEntries recs acc = .error () := by
  induction recs generalizing acc with
  | nil => simp at h
  | cons r rest ih =>
    obtain ⟨r0, hr0, hlit⟩ := h
    rcases List.mem_cons.mp hr0 with h1 | h1
    · subst h1
      unfold loadEntries
      rw [hlit]
    · unfold loadEntries
      cases hl : r.literal with
      | none => rfl
      | some k => exact ih _ ⟨r0, h1, hlit⟩

/-- C6 amended: a source record missing the literal field is not
skipped: any such record makes the whole load fail with the error
propagated, exactly as a malformed source does. -/
theorem C6_amended_missing_literal_fails_load (recs : List XmlRecord)
    (h : ∃ r ∈ recs, r.literal = none) :
    load_kanji_readings (.parsed recs) = .error () ∧
    load_kanji_readings .malformed = .error () :=
  ⟨loadEntries_error recs [] h, rfl⟩

/-- C6 amended witness: the two-record source whose first record lacks a
literal fails to load. -/
theorem C6_witness :
    load_kanji_readings (.parsed [⟨none, [], []⟩,
      ⟨some ("二".toList), [], ["に".toList]⟩]) = .error () ∧
    load_kanji_readings .malformed = .error () :=
  C6_amended_missing_literal_fails_load
    [⟨none, [], []⟩, ⟨some ("二".toList), [], ["に".toList]⟩]
    ⟨⟨none, [], []⟩, by simp, rfl⟩

/-- C7: only the single voiced alternative is generated: the record with
kun reading は loads as [は, ば]; the semi-voiced ぱ is never produced,
and ひょう voices only to びょう, never ぴょう. -/
theorem C7_counterexample :
    entry_readings ["は".toList] [] = ["は".toList, "ば".toList] ∧
    "ぱ".toList ∉ entry_readings ["は".toList] [] ∧
    get_rendaku_form ("ひょう".toList) = some ("びょう".toList) := by decide

theorem mem_of_lookup {α β : Type} [BEq α] [LawfulBEq α]
    {l : List (α × β)} {a : α} {b : β} (h : l.lookup a = some b) :
    (a, b) ∈ l := by
  induction l with
  | nil => simp [List.lookup] at h
  | cons p rest ih =>
    rw [List.lookup] at h
    cases ha : a == p.1
    · rw [ha] at h
      simp only at h
      exact List.mem_cons_of_mem _ (ih h)
    · rw [ha] at h
      simp only [Option.some.injEq] at h
      have hpa : a = p.1 := eq_of_beq ha
      cases p
      simp_all

/-- C7 amended: the load generates per base reading at most one voiced
alternative via the first applicable k→g, s→z, t→d, h→b row and appends
it when not already present; no semi-voiced (p-row) alternative is ever
generated, the source's f→p branches being unreachable. -/
theorem C7_amended_single_voiced_form (kuns ons : List Str) :
    (∀ v ∈ entry_readings kuns ons,
      v ∈ base_readings kuns ons ∨
      ∃ rd ∈ base_readings kuns ons, get_rendaku_form rd = some v) ∧
    (∀ rd ∈ base_readings kuns ons, ∀ v, get_rendaku_form rd = some v →
      v ∉ base_readings kuns ons → v ∈ entry_readings kuns ons) ∧
    (∀ r v, get_rendaku_form r = some v →
      ∀ c, v.head? = some c → c ∉ ['ぱ', 'ぴ', 'ぷ', 'ぺ', 'ぽ']) := by
  refine ⟨?_, ?_, ?_⟩
  · intro v hv
    rcases List.mem_append.mp hv with h1 | h1
    · exact Or.inl h1
    · right
      obtain ⟨hmem, -⟩ := List.mem_filter.mp h1
      obtain ⟨rd, hrd, hform⟩ := List.mem_filterMap.mp hmem
      exact ⟨rd, hrd, hform⟩
  · intro rd hrd v hform hnot
    unfold entry_readings
    refine List.mem_append_right _ (List.mem_filter.mpr ?_)
    exact ⟨List.mem_filterMap.mpr ⟨rd, hrd, hform⟩, by simpa using hnot⟩
  · intro r v hform c hc
    match r, hform with
    | r0 :: rest, hform =>
      simp only [get_rendaku_form] at hform
      cases hl : rendaku_table.lookup r0 with
      | none => rw [hl] at hform; exact absurd hform (by simp)
      | some b =>
        rw [hl] at hform
        simp only [Option.some.injEq] at hform
        have hmem := mem_of_lookup hl
        have hb : b ∈ ['が', 'ぎ', 'ぐ', 'げ', 'ご', 'ざ', 'じ', 'ず', 'ぜ',
            'ぞ', 'だ', 'ぢ', 'づ', 'で', 'ど', 'ば', 'び', 'ぶ', 'べ',
            'ぼ'] := by
          have hall : ∀ pr ∈ rendaku_table, pr.2 ∈ ['が', 'ぎ', 'ぐ', 'げ',
              'ご', 'ざ', 'じ', 'ず', 'ぜ', 'ぞ', 'だ', 'ぢ', 'づ', 'で',
              'ど', 'ば', 'び', 'ぶ', 'べ', 'ぼ'] := by decide
          exact hall (r0, b) hmem
        rw [← hform] at hc
        simp only [List.head?] at hc
        rw [Option.some_inj] at hc
        subst hc
        fin_cases hb <;> decide

/-- C7 amended witness: for the record with kun reading は the voiced
form ば is generated and appended. -/
theorem C7_witness : "ば".toList ∈ entry_readings ["は".toList] [] :=
  (C7_amended_single_voiced_form ["は".toList] []).2.1 ("は".toList)
    (by decide) ("ば".toList) (by decide) (by decide)

/-- C10: with a MyPosition field at index i the function returns true,
keeps the field names, writes the formatted rounded score at index i
and leaves every other field value unchanged; without one it returns
false and leaves the note untouched. -/
theorem C10_update_my_position_frame (note : AnkiNote) (score : ℚ) :
    (∀ i, my_position_index note.fieldNames = some i →
      (update_my_position_field note score).2 = true ∧
      (update_my_position_field note score).1.fieldNames =
        note.fieldNames ∧
      (update_my_position_field note score).1.fields =
        note.fields.set i (format_score score) ∧
      ∀ j, j ≠ i →
        (update_my_position_field note score).1.fields[j]? =
          note.fields[j]?) ∧
    (my_position_index note.fieldNames = none →
      update_my_position_field note score = (note, false)) := by
  constructor
  · intro i hi
    simp only [update_my_position_field, hi]
    refine ⟨trivial, trivial, trivial, ?_⟩
    intro j hj
    exact List.getElem?_set_ne (Ne.symm hj)
  · intro hn
    simp only [update_my_position_field, hn]

/-- C10 witness: on a concrete two-field note the update returns true
and the non-MyPosition field keeps its value. -/
theorem C10_witness :
    (update_my_position_field ⟨["Front".toList, "MyPosition".toList],
      ["x".toList, "y".toList]⟩ 5).2 = true ∧
    (update_my_position_field ⟨["Front".toList, "MyPosition".toList],
      ["x".toList, "y".toList]⟩ 5).1.fields[0]? = some ("x".toList) := by
  have h := (C10_update_my_position_frame ⟨["Front".toList,
    "MyPosition".toList], ["x".toList, "y".toList]⟩ 5).1 1 (by decide)
  refine ⟨h.1, ?_⟩
  rw [h.2.2.2 0 (by decide)]
  decide

theorem exists_of_isPrefixOf {l1 l2 : Str} (h : l1.isPrefixOf l2 = true) :
    ∃ t, l1 ++ t = l2 := by
  induction l1 generalizing l2 with
  | nil => exact ⟨l2, rfl⟩
  | cons a as ih =>
    cases l2 with
    | nil => simp [List.isPrefixOf] at h
    | cons b bs =>
      simp only [List.isPrefixOf, Bool.and_eq_true, beq_iff_eq] at h
      obtain ⟨t, ht⟩ := ih h.2
      exact ⟨t, by simp [h.1, ht]⟩

theorem singleton_isSuffixOf_concat {a b : Char} {l : Str} :
    [a].isSuffixOf (l ++ [b]) = true ↔ a = b := by
  simp [List.isSuffixOf, List.isPrefixOf]

theorem sokuonScan_hits (p : Str) (e : Char) (ar : Str) (es : List Char)
    (he : e ∈ es)
    (har : (sokuonVersion (p ++ [e])).isPrefixOf ar = true) :
    sokuonScan (p ++ [e]) ar es =
      some (sokuonVersion (p ++ [e]), p ++ [e]) := by
  induction es with
  | nil => simp at he
  | cons e2 es2 ih =>
    by_cases he2 : e2 = e
    · subst he2
      unfold sokuonScan
      rw [if_pos]
      exact ⟨singleton_isSuffixOf_concat.mpr rfl, har⟩
    · have he3 : e ∈ es2 := by
        rcases List.mem_cons.mp he with h | h
        · exact absurd h.symm he2
        · exact h
      unfold sokuonScan
      rw [if_neg]
      · exact ih he3
      · intro hcon
        exact he2 (singleton_isSuffixOf_concat.mp hcon.1)

/-- C9: for a dictionary reading ending in a sokuon-forming mora and a
candidate starting with the reading's remaining part followed by っ, the
matcher returns exactly (that part plus っ, the dictionary reading). -/
theorem C9_sokuon_match (p : Str) (e : Char) (kr ar : Str)
    (he : e ∈ sokuon_endings) (hkr : kr = p ++ [e])
    (har : (p ++ ['っ']).isPrefixOf ar = true) :
    fuzzy_reading_match kr ar = some (p ++ ['っ'], kr) := by
  subst hkr
  have hsv : sokuonVersion (p ++ [e]) = p ++ ['っ'] := by
    simp [sokuonVersion]
  have hne : ¬ p ++ [e] = ar := by
    intro heq
    rw [← heq] at har
    obtain ⟨t, ht⟩ := exists_of_isPrefixOf har
    have hlen : t = [] := by
      have := congrArg List.length ht
      simp at this
      simp [this]
    rw [hlen, List.append_nil] at ht
    have hee : 'っ' = e := by
      have := List.append_inj_right ht (by rfl)
      simpa using this
    rw [← hee] at he
    simp [sokuon_endings] at he
  unfold fuzzy_reading_match
  rw [if_neg hne]
  rw [sokuonScan_hits p e ar sokuon_endings he (by rw [hsv]; exact har)]
  rw [hsv]

/-- C9 witness: がく against the candidate がっこう matches as (がっ,
がく). -/
theorem C9_witness :
    fuzzy_reading_match ("がく".toList) ("がっこう".toList) =
      some ("がっ".toList, "がく".toList) :=
  C9_sokuon_match ("が".toList) 'く' ("がく".toList) ("がっこう".toList)
    (by decide) (by decide) (by decide)

theorem mem_addPair_of_mem {ps : List Str} {p q : Str} (h : p ∈ ps) :
    p ∈ addPair ps q := by
  unfold addPair
  split
  · exact h
  · exact List.mem_append_left _ h

theorem mem_addPair_self (ps : List Str) (p : Str) : p ∈ addPair ps p := by
  unfold addPair
  split
  · assumption
  · exact List.mem_append_right _ (by simp)

theorem mem_of_mem_addChar {cs : List Char} {c d : Char}
    (h : c ∈ addChar cs d) : c ∈ cs ∨ c = d := by
  unfold addChar at h
  split at h
  · exact Or.inl h
  · rcases List.mem_append.mp h with h1 | h1
    · exact Or.inl h1
    · exact Or.inr (by simpa using h1)

theorem addPairsFor_mono {st : List Str × List Char}
    (items : List (Char × Str)) {p : Str} (h : p ∈ st.1) :
    p ∈ (addPairsFor st items).1 := by
  induction items generalizing st with
  | nil => exact h
  | cons it rest ih =>
    unfold addPairsFor
    rw [List.foldl_cons]
    exact ih (mem_addPair_of_mem h)

theorem processMatch_mono (kd : KDict) (st : List Str × List Char)
    (m : Str × Str) {p : Str} (h : p ∈ st.1) :
    p ∈ (processMatch kd st m).1 := by
  obtain ⟨w, r⟩ := m
  rcases w with _ | ⟨c, _ | ⟨c2, w2⟩⟩
  · simp only [processMatch]
    split
    · split
      · exact addPairsFor_mono _ (mem_addPair_of_mem h)
      · exact addPairsFor_mono _ (mem_addPair_of_mem h)
    · split
      · exact mem_addPair_of_mem h
      · exact h
  · simp only [processMatch]
    exact mem_addPair_of_mem h
  · simp only [processMatch]
    split
    · split
      · exact addPairsFor_mono _ (mem_addPair_of_mem h)
      · exact addPairsFor_mono _ (mem_addPair_of_mem h)
    · split
      · exact mem_addPair_of_mem h
      · exact h

theorem processFold_mono (kd : KDict) (ms : List (Str × Str))
    (st : List Str × List Char) {p : Str} (h : p ∈ st.1) :
    p ∈ (ms.foldl (processMatch kd) st).1 := by
  induction ms generalizing st with
  | nil => exact h
  | cons m rest ih =>
    rw [List.foldl_cons]
    exact ih _ (processMatch_mono kd st m h)

theorem emptyFold_mono (text : Str) (proc : List Char) (ps : List Str)
    {p : Str} (h : p ∈ ps) : p ∈ text.foldl (emptyStep proc) ps := by
  induction text generalizing ps with
  | nil => exact h
  | cons d rest ih =>
    rw [List.foldl_cons]
    refine ih _ ?_
    unfold emptyStep
    split
    · exact mem_addPair_of_mem h
    · exact h

theorem singleton_expand_kanji_le_one (c : Char) :
    (extract_kanji_only (expand_iteration_marks [c])).length ≤ 1 := by
  by_cases hc : c = '々'
  · subst hc
    decide
  · unfold expand_iteration_marks expandGo
    rw [if_neg hc]
    unfold expandGo
    simp only [extract_kanji_only]
    cases hI : isKanji c <;> simp [List.filter_cons, hI]

theorem processMatch_adds_compound (kd : KDict) (st : List Str × List Char)
    (w r : Str)
    (hk : 2 ≤ (extract_kanji_only (expand_iteration_marks w)).length) :
    mkPair w r ∈ (processMatch kd st (w, r)).1 := by
  rcases w with _ | ⟨c, _ | ⟨c2, w2⟩⟩
  · simp [extract_kanji_only, expand_iteration_marks, expandGo] at hk
  · have := singleton_expand_kanji_le_one c
    omega
  · simp only [processMatch]
    split
    · split
      · exact addPairsFor_mono _ (mem_addPair_self _ _)
      · exact addPairsFor_mono _ (mem_addPair_self _ _)
    · rename_i hlen
      exact absurd hk (by omega)

/-- C3: every bracketed occurrence whose compound has two or more kanji
after iteration-mark expansion also contributes the whole compound (in
original form) paired with the full reading, regardless of how the
per-kanji alignment fares. -/
theorem C3_compound_pair_always_included (text : Str) (kd : KDict)
    (w r : Str) (hm : (w, r) ∈ findMatches text)
    (hk : 2 ≤ (extract_kanji_only (expand_iteration_marks w)).length) :
    mkPair w r ∈ get_kanji_reading_pairs text kd := by
  obtain ⟨l1, l2, hsplit⟩ := List.append_of_mem hm
  unfold get_kanji_reading_pairs
  rw [hsplit, List.foldl_append, List.foldl_cons]
  apply emptyFold_mono
  apply processFold_mono
  exact processMatch_adds_compound kd _ w r hk

/-- C3 witness: 一挙[いっきょ] keeps its compound pair even under the
empty dictionary. -/
theorem C3_witness : mkPair ("一挙".toList) ("いっきょ".toList) ∈
    get_kanji_reading_pairs ("一挙[いっきょ]".toList) [] :=
  C3_compound_pair_always_included ("一挙[いっきょ]".toList) []
    ("一挙".toList) ("いっきょ".toList) (by decide) (by decide)

theorem addPairsFor_inv {st : List Str × List Char}
    (items : List (Char × Str))
    (hinv : ∀ c ∈ st.2, ∃ r2, mkPair [c] r2 ∈ st.1) :
    ∀ c ∈ (addPairsFor st items).2, ∃ r2,
      mkPair [c] r2 ∈ (addPairsFor st items).1 := by
  induction items generalizing st with
  | nil => exact hinv
  | cons it rest ih =>
    unfold addPairsFor
    rw [List.foldl_cons]
    refine ih ?_
    intro c hc
    rcases mem_of_mem_addChar hc with h1 | h1
    · obtain ⟨r2, hr2⟩ := hinv c h1
      exact ⟨r2, mem_addPair_of_mem hr2⟩
    · subst h1
      exact ⟨it.2, mem_addPair_self _ _⟩

theorem processMatch_inv (kd : KDict) (st : List Str × List Char)
    (m : Str × Str)
    (hinv : ∀ c ∈ st.2, ∃ r2, mkPair [c] r2 ∈ st.1) :
    ∀ c ∈ (processMatch kd st m).2, ∃ r2,
      mkPair [c] r2 ∈ (processMatch kd st m).1 := by
  obtain ⟨w, r⟩ := m
  have hsingle : ∀ (c0 : Char) (r0 : Str), ∀ c ∈ addChar st.2 c0, ∃ r2,
      mkPair [c] r2 ∈ addPair st.1 (mkPair [c0] r0) := by
    intro c0 r0 c hc
    rcases mem_of_mem_addChar hc with h1 | h1
    · obtain ⟨r2, hr2⟩ := hinv c h1
      exact ⟨r2, mem_addPair_of_mem hr2⟩
    · subst h1
      exact ⟨r0, mem_addPair_self _ _⟩
  have hmid : ∀ c ∈ st.2, ∃ r2,
      mkPair [c] r2 ∈ addPair st.1 (mkPair w r) := by
    intro c hc
    obtain ⟨r2, hr2⟩ := hinv c hc
    exact ⟨r2, mem_addPair_of_mem hr2⟩
  rcases w with _ | ⟨c1, _ | ⟨c2, w2⟩⟩
  · simp only [processMatch]
    split
    · split
      · exact addPairsFor_inv _ hmid
      · exact addPairsFor_inv _ hmid
    · split
      · exact hsingle _ _
      · exact hinv
  · simp only [processMatch]
    exact hsingle _ _
  · simp only [processMatch]
    split
    · split
      · exact addPairsFor_inv _ hmid
      · exact addPairsFor_inv _ hmid
    · split
      · exact hsingle _ _
      · exact hinv

theorem processFold_inv (kd : KDict) (ms : List (Str × Str))
    (st : List Str × List Char)
    (hinv : ∀ c ∈ st.2, ∃ r2, mkPair [c] r2 ∈ st.1) :
    ∀ c ∈ (ms.foldl (processMatch kd) st).2, ∃ r2,
      mkPair [c] r2 ∈ (ms.foldl (processMatch kd) st).1 := by
  induction ms generalizing st with
  | nil => exact hinv
  | cons m rest ih =>
    rw [List.foldl_cons]
    exact ih _ (processMatch_inv kd st m hinv)

theorem emptyFold_covers (text : Str) (proc : List Char) (ps : List Str)
    (hinv : ∀ c ∈ proc, ∃ r2, mkPair [c] r2 ∈ ps) :
    ∀ c ∈ text, isKanji c = true →
      ∃ r2, mkPair [c] r2 ∈ text.foldl (emptyStep proc) ps := by
  induction text generalizing ps with
  | nil => intro c hc; simp at hc
  | cons d rest ih =>
    intro c hc hk
    rw [List.foldl_cons]
    rcases List.mem_cons.mp hc with h1 | h1
    · subst h1
      by_cases hp : c ∈ proc
      · obtain ⟨r2, hr2⟩ := hinv c hp
        refine ⟨r2, emptyFold_mono _ _ _ ?_⟩
        unfold emptyStep
        split
        · exact mem_addPair_of_mem hr2
        · exact hr2
      · refine ⟨[], emptyFold_mono _ _ _ ?_⟩
        unfold emptyStep
        rw [if_pos ⟨hk, hp⟩]
        exact mem_addPair_self _ _
    · refine ih _ ?_ c h1 hk
      intro c2 hc2
      obtain ⟨r2, hr2⟩ := hinv c2 hc2
      refine ⟨r2, ?_⟩
      unfold emptyStep
      split
      · exact mem_addPair_of_mem hr2
      · exact hr2

/-- C8: every kanji character of the input text appears in at least one
pair of the extractor's result, with some (possibly empty) reading. -/
theorem C8_kanji_coverage (text : Str) (kd : KDict) (c : Char)
    (hc : c ∈ text) (hk : isKanji c = true) :
    ∃ r2, mkPair [c] r2 ∈ get_kanji_reading_pairs text kd := by
  unfold get_kanji_reading_pairs
  refine emptyFold_covers text _ _ ?_ c hc hk
  exact processFold_inv kd (findMatches text) ([], []) (by simp)

/-- C8 witness: the kanji 一 of 一挙[いっきょ] is covered even under the
empty dictionary. -/
theorem C8_witness : ∃ r2, mkPair ['一'] r2 ∈
    get_kanji_reading_pairs ("一挙[いっきょ]".toList) [] :=
  C8_kanji_coverage ("一挙[いっきょ]".toList) [] '一' (by decide)
    (by decide)

theorem isPrefixOf_nil_eq_false {l : Str} (h : l ≠ []) :
    l.isPrefixOf ([] : Str) = false := by
  cases l with
  | nil => exact absurd rfl h
  | cons a as => simp [List.isPrefixOf]

theorem sokuonVersion_ne_nil (kr : Str) : sokuonVersion kr ≠ [] := by
  unfold sokuonVersion
  simp

theorem sokuonScan_nil_candidate (kr : Str) (es : List Char) :
    sokuonScan kr [] es = none := by
  induction es with
  | nil => rfl
  | cons e es2 ih =>
    unfold sokuonScan
    rw [if_neg, ih]
    intro hcon
    have hpre := hcon.2
    rw [isPrefixOf_nil_eq_false (sokuonVersion_ne_nil kr)] at hpre
    exact absurd hpre (by simp)

theorem fuzzy_nil_candidate (kr : Str) (hk : kr ≠ []) :
    fuzzy_reading_match kr [] = none := by
  unfold fuzzy_reading_match
  rw [if_neg hk, sokuonScan_nil_candidate]
  rw [if_neg (by simp)]
  have hm1 : rendakuPrefixCheck multi_char_rendaku kr [] = none := by
    unfold rendakuPrefixCheck
    cases hl : multi_char_rendaku.lookup kr with
    | none => rfl
    | some exp =>
      have hval : ∀ pr ∈ multi_char_rendaku, pr.2 ≠ [] := by decide
      have hexp := isPrefixOf_nil_eq_false (hval _ (mem_of_lookup hl))
      simp [hexp]
  have hm2 : rendakuPrefixCheck h_to_p_rendaku_multi kr [] = none := by
    unfold rendakuPrefixCheck
    cases hl : h_to_p_rendaku_multi.lookup kr with
    | none => rfl
    | some exp =>
      have hval : ∀ pr ∈ h_to_p_rendaku_multi, pr.2 ≠ [] := by decide
      have hexp := isPrefixOf_nil_eq_false (hval _ (mem_of_lookup hl))
      simp [hexp]
  have hm3 : singleCharBlock kr [] = none := by
    unfold singleCharBlock
    rw [if_neg]
    intro hcon
    rw [hcon.1] at hcon
    exact absurd hcon.2 (by simp)
  have hm4 : finalSokuonCheck kr [] = none := by
    unfold finalSokuonCheck
    rw [if_neg]
    intro hcon
    have hsuf := hcon.2.1
    simp [List.isSuffixOf, List.isPrefixOf] at hsuf
  rw [hm1, hm2, hm3, hm4]

theorem mem_insertDesc {v x : Str} {l : List Str}
    (h : v ∈ insertDesc x l) : v = x ∨ v ∈ l := by
  induction l with
  | nil =>
    simp [insertDesc] at h
    exact Or.inl h
  | cons y ys ih =>
    unfold insertDesc at h
    split at h
    · rcases List.mem_cons.mp h with h1 | h1
      · exact Or.inl h1
      · exact Or.inr h1
    · rcases List.mem_cons.mp h with h1 | h1
      · exact Or.inr (by simp [h1])
      · rcases ih h1 with h2 | h2
        · exact Or.inl h2
        · exact Or.inr (List.mem_cons_of_mem _ h2)

theorem foldl_insertDesc_mem {v : Str} (l : List Str) (acc : List Str)
    (h : v ∈ l.foldl (fun a x => insertDesc x a) acc) :
    v ∈ l ∨ v ∈ acc := by
  induction l generalizing acc with
  | nil => exact Or.inr h
  | cons x xs ih =>
    rw [List.foldl_cons] at h
    rcases ih _ h with h1 | h1
    · exact Or.inl (List.mem_cons_of_mem _ h1)
    · rcases mem_insertDesc h1 with h3 | h3
      · exact Or.inl (by simp [h3])
      · exact Or.inr h3

theorem mem_sortReadingsDesc {v : Str} {l : List Str}
    (h : v ∈ sortReadingsDesc l) : v ∈ l := by
  rcases foldl_insertDesc_mem l [] h with h1 | h1
  · exact h1
  · simp at h1

theorem firstExactGo_nil_remaining {possible full : List Str}
    (hvar : ∀ v ∈ possible, v ≠ []) :
    firstExactGo full ([] : Str) possible = none := by
  induction possible with
  | nil => rfl
  | cons opt rest ih =>
    unfold firstExactGo
    rw [isPrefixOf_nil_eq_false (hvar opt (List.mem_cons_self _ _))]
    simp only [Bool.false_eq_true, if_false]
    exact ih (fun v hv => hvar v (List.mem_cons_of_mem _ hv))

theorem firstFuzzy_nil_remaining {possible : List Str}
    (hvar : ∀ v ∈ possible, v ≠ []) :
    firstFuzzy possible ([] : Str) = none := by
  induction possible with
  | nil => rfl
  | cons opt rest ih =>
    unfold firstFuzzy
    rw [List.take_nil,
      fuzzy_nil_candidate opt (hvar opt (List.mem_cons_self _ _))]
    exact ih (fun v hv => hvar v (List.mem_cons_of_mem _ hv))

theorem alignAt_lt (kd : KDict) (reading : Str) (k : Char) (start : Nat)
    (x : Str × Nat) (hvar : ∀ v, v ∈ kdGet kd k → v ≠ [])
    (h : alignAt kd reading k start = some x) : start < reading.length := by
  by_contra hge
  have hdrop : reading.drop start = [] :=
    List.drop_eq_nil_of_le (by omega)
  have hvs : ∀ v ∈ sortReadingsDesc (kdGet kd k), v ≠ [] :=
    fun v hv => hvar v (mem_sortReadingsDesc hv)
  simp only [alignAt, firstExact, hdrop] at h
  rw [firstExactGo_nil_remaining hvs, firstFuzzy_nil_remaining hvs] at h
  exact absurd h (by simp)

theorem posGo_offsets_lt (kd : KDict) (reading : Str)
    (hvar : ∀ k v, v ∈ kdGet kd k → v ≠ [])
    (ks : List (Nat × Char)) (idx prev : Nat) (first : Bool)
    (pairs : List (Char × Str))
    (hsucc : (posGo kd reading ks idx prev first).2 = some pairs) :
    ∀ po ∈ (posGo kd reading ks idx prev first).1,
      po.2 < reading.length := by
  induction ks generalizing idx prev first pairs with
  | nil => intro po hpo; simp [posGo] at hpo
  | cons pk rest ih =>
    obtain ⟨pos, k⟩ := pk
    intro po hpo
    unfold posGo at hsucc hpo
    cases halign : alignAt kd reading k (posStart pos idx prev first) with
    | none =>
      rw [halign] at hsucc
      exact absurd hsucc (by simp)
    | some bi =>
      obtain ⟨base, i2⟩ := bi
      rw [halign] at hsucc hpo
      simp only at hsucc hpo
      cases hrec : (posGo kd reading rest i2 pos false).2 with
      | none => rw [hrec] at hsucc; exact absurd hsucc (by simp)
      | some ps2 =>
        rcases List.mem_cons.mp hpo with h1 | h1
        · subst h1
          exact alignAt_lt kd reading k _ _ (hvar k) halign
        · exact ih i2 pos false ps2 hrec po h1

/-- C5 amended: the pass applies no clamp and the claimed reservation
bound fails (see the counterexample); what does hold is that whenever
the position pass succeeds for every kanji and all dictionary variants
are nonempty, every recorded starting offset lies strictly inside the
reading. -/
theorem C5_amended_offsets_within_reading (kanji_word reading : Str) (kd : KDict)
    (hvar : ∀ k v, v ∈ kdGet kd k → v ≠ [])
    (pairs : List (Char × Str))
    (hsucc : (posGo kd reading (kanjiPositions kanji_word) 0 0 true).2 =
      some pairs) :
    ∀ po ∈ posTrace kanji_word reading kd, po.2 < reading.length := by
  intro po hpo
  simp only [posTrace] at hpo
  split at hpo
  · simp at hpo
  · exact posGo_offsets_lt kd reading hvar _ 0 0 true pairs hsucc po hpo

theorem overconsumeDict_variants_nonempty : ∀ k v, v ∈ kdGet overconsumeDict k → v ≠ [] := by
  intro k v hv
  unfold kdGet at hv
  cases hl : List.lookup [k] overconsumeDict with
  | none => rw [hl] at hv; simp at hv
  | some l =>
    rw [hl] at hv
    simp only [Option.getD_some] at hv
    have hall : ∀ pr ∈ overconsumeDict, ∀ v2 ∈ pr.2, v2 ≠ [] := by decide
    exact hall _ (mem_of_lookup hl) v hv

/-- C5 amended witness: the recorded offset 3 of the successful
counterexample alignment is below the reading length 4. -/
theorem C5_witness : 3 < ("かきくけ".toList).length :=
  C5_amended_offsets_within_reading ("一二あい".toList) ("かきくけ".toList)
    overconsumeDict overconsumeDict_variants_nonempty
    [('一', "かきく".toList), ('二', "け".toList)] (by decide)
    (1, 3) (by decide)

end CardScheduler
